import Mathlib

/-!
Verification of the `wooden_structure` binary-search-tree module.

The Python module defines a `Node` class (fields `value`, `_depth`, `left`,
`right`) and a `BinaryTree` class with `insert`, `delete`, `__contains__` and
an `__iter__` supporting four traversal orders selected by a `TraverseType`
enum.  We embed the module shallowly: optional node references become an
inductive `Tree` with a `nil` constructor, element values are specialised to
`Int` (a total order, as the module requires of its element type), and the
mutating methods become pure functions returning the rebuilt tree, exactly
mirroring the source's rebuild-on-unwind recursion.
-/

namespace WoodenStructure

/-- The `TraverseType` enum of the source: the four traversal strategies. -/
inductive TraverseType where
  | PRE_ORDER
  | IN_ORDER
  | POST_ORDER
  | LEVEL_ORDER
deriving DecidableEq

/-- An optional `Node`: `nil` is Python `None`; `node value depth left right`
is a `Node` object with fields `value`, `_depth`, `left`, `right`. -/
inductive Tree where
  | nil : Tree
  | node (value : Int) (depth : Nat) (left : Tree) (right : Tree) : Tree
deriving DecidableEq

/-- The `value` field of a node; 0 on `nil` (never consulted there). -/
def Tree.val : Tree → Int
  | .nil => 0
  | .node v _ _ _ => v

/-- The cached `_depth` field of a node (the `depth` property); 0 on `nil`. -/
def Tree.depth : Tree → Nat
  | .nil => 0
  | .node _ d _ _ => d

/-- The inner `_insert(node, value, depth)` of `BinaryTree.insert`: at `None`
create `Node(value, depth)`; at an equal value return the node unchanged;
otherwise recurse left (`value < node`) or right with `depth + 1`. -/
def insertAux : Tree → Int → Nat → Tree
  | .nil, value, depth => .node value depth .nil .nil
  | .node x dx l r, value, depth =>
    if value = x then .node x dx l r
    else if value < x then .node x dx (insertAux l value (depth + 1)) r
    else .node x dx l (insertAux r value (depth + 1))

/-- `BinaryTree.insert(value)`: `self.root = _insert(self.root, value, 0)`. -/
def insert (t : Tree) (value : Int) : Tree := insertAux t value 0

/-- The inner `_search_min(node)` of `BinaryTree.delete`, with the node's
`value` and `left` fields passed explicitly (the source requires a non-None
node): if `node.left is None` return `node.value`, else recurse on the left
child. -/
def searchMin : Int → Tree → Int
  | value, .nil => value
  | _, .node lv _ ll _ => searchMin lv ll

/-- The inner `_delete_min(node)` of `BinaryTree.delete`, with the node's four
fields passed explicitly: if `node.left is None` return `node.right`, else
replace the left child with `_delete_min(node.left)` and return the node. -/
def deleteMin : Int → Nat → Tree → Tree → Tree
  | _, _, .nil, right => right
  | value, depth, .node lv ld ll lr, right => .node value depth (deleteMin lv ld ll lr) right

/-- The inner `_delete(node, value)` of `BinaryTree.delete`: descend by
comparison; at the matched node splice in the only child, or, with two
children, overwrite the value with the right subtree's minimum and delete
that minimum from the right subtree. -/
def deleteAux : Tree → Int → Tree
  | .nil, _ => .nil
  | .node x d l r, value =>
    if value = x then
      match l, r with
      | .nil, _ => r
      | _, .nil => l
      | _, .node rv rd rl rr => .node (searchMin rv rl) d l (deleteMin rv rd rl rr)
    else if value < x then .node x d (deleteAux l value) r
    else .node x d l (deleteAux r value)

/-- `BinaryTree.delete(value)`: `self.root = _delete(self.root, value)`. -/
def delete (t : Tree) (value : Int) : Tree := deleteAux t value

/-- The inner `_pre_order` generator of `BinaryTree.__iter__`: node, left
subtree, right subtree. -/
def preOrder : Tree → List Tree
  | .nil => []
  | .node v d l r => .node v d l r :: (preOrder l ++ preOrder r)

/-- The inner `_in_order` generator of `BinaryTree.__iter__`: left subtree,
node, right subtree. -/
def inOrder : Tree → List Tree
  | .nil => []
  | .node v d l r => inOrder l ++ (.node v d l r :: inOrder r)

/-- The inner `_post_order` generator of `BinaryTree.__iter__`: left subtree,
right subtree, node. -/
def postOrder : Tree → List Tree
  | .nil => []
  | .node v d l r => (postOrder l ++ postOrder r) ++ [.node v d l r]

/-- One update of the `result` dict of `_level_order`: append the node to the
bucket of its depth, or add a fresh bucket at the end (Python dicts preserve
key insertion order). -/
def dictAdd : List (Nat × List Tree) → Nat → Tree → List (Nat × List Tree)
  | [], d, n => [(d, [n])]
  | p :: res, d, n => if p.1 = d then (p.1, p.2 ++ [n]) :: res else p :: dictAdd res d n

/-- The inner recursion `_` of `_level_order`: visit the node, then fold over
the left subtree, then the right subtree. -/
def levelAux : Tree → List (Nat × List Tree) → List (Nat × List Tree)
  | .nil, result => result
  | .node v d l r, result => levelAux r (levelAux l (dictAdd result d (.node v d l r)))

/-- `_level_order(node)`: flatten the dict's buckets in key-insertion order
(`[node for r in _(node, {}).values() for node in r]`). -/
def levelOrder (t : Tree) : List Tree := ((levelAux t []).map Prod.snd).flatten

/-- `BinaryTree.__iter__` dispatching on `self.traverse_type`. -/
def traverse : TraverseType → Tree → List Tree
  | .PRE_ORDER, t => preOrder t
  | .IN_ORDER, t => inOrder t
  | .POST_ORDER, t => postOrder t
  | .LEVEL_ORDER, t => levelOrder t

/-- `BinaryTree.__contains__(value)`: scan the configured traversal for a node
whose value equals `value` (`Node.__eq__` compares values). -/
def contains (ty : TraverseType) (t : Tree) (value : Int) : Bool :=
  (traverse ty t).any (fun n => n.val == value)

/-- Specification helper: the stored values of a tree in symmetric order. -/
def keys : Tree → List Int
  | .nil => []
  | .node v _ l r => keys l ++ v :: keys r

/-- Specification helper: the number of nodes of a tree. -/
def size : Tree → Nat
  | .nil => 0
  | .node _ _ l r => size l + size r + 1

/-- Specification helper: `p` holds of every value stored in the tree. -/
def allB (p : Int → Bool) : Tree → Bool
  | .nil => true
  | .node v _ l r => p v && allB p l && allB p r

/-- The binary-search-tree ordering invariant of the spec: at every node, all
left-subtree values are strictly smaller and all right-subtree values strictly
larger than the node's value. -/
def isBST : Tree → Bool
  | .nil => true
  | .node v _ l r =>
      allB (fun x => decide (x < v)) l && allB (fun x => decide (v < x)) r && isBST l && isBST r

/-- Specification helper: every cached depth equals the structural depth when
the root sits at structural depth `k`. -/
def depthOk : Tree → Nat → Bool
  | .nil, _ => true
  | .node _ d l r, k => decide (d = k) && depthOk l (k + 1) && depthOk r (k + 1)

/-- A call to a mutating method of `BinaryTree`. -/
inductive Op where
  | ins (value : Int)
  | del (value : Int)
deriving DecidableEq

/-- Apply a single method call to the tree. -/
def step (t : Tree) : Op → Tree
  | .ins v => insert t v
  | .del v => delete t v

/-- The tree reached from a fresh empty tree by a sequence of method calls. -/
def run (ops : List Op) : Tree := ops.foldl step .nil

/-- The tree built by the constructor loop `for i in iterable: self.insert(i)`. -/
def ofList (xs : List Int) : Tree := xs.foldl insert .nil

/-- Specification helper: the arguments of the insert calls of a sequence. -/
def insertedVals : List Op → List Int
  | [] => []
  | .ins v :: ops => v :: insertedVals ops
  | .del _ :: ops => insertedVals ops

/-- Specification helper: how many insert calls of the sequence inserted a
value not present at the time of the call. -/
def succInserts : Tree → List Op → Nat
  | _, [] => 0
  | t, .ins v :: ops => (if v ∈ keys t then 0 else 1) + succInserts (insert t v) ops
  | t, .del v :: ops => succInserts (delete t v) ops

/-- Specification helper: how many delete calls of the sequence removed a
value present at the time of the call. -/
def succDeletes : Tree → List Op → Nat
  | _, [] => 0
  | t, .ins v :: ops => succDeletes (insert t v) ops
  | t, .del v :: ops => (if v ∈ keys t then 1 else 0) + succDeletes (delete t v) ops

/-- The state of a `BinaryTree` object: its `root` and `traverse_type`. -/
structure BinaryTree where
  root : Tree
  traverse_type : TraverseType
deriving DecidableEq

/-- Outcome of running `BinaryTree.__init__`: either a constructed object, or
the `TypeError` Python raises when `for i in iterable` iterates `None`. -/
inductive InitResult where
  | typeError
  | ok (bt : BinaryTree)
deriving DecidableEq

/-- `BinaryTree.__init__(iterable=None, traverse_type=...)`: sets `root = None`,
stores the traverse type, then runs `for i in iterable: self.insert(i)` —
which raises `TypeError` when `iterable` is `None` (Python cannot iterate
`None`), and otherwise inserts the elements in order. -/
def binaryTreeInit (iterable : Option (List Int)) (tt : TraverseType) : InitResult :=
  match iterable with
  | none => .typeError
  | some xs => .ok ⟨ofList xs, tt⟩

/-- Specification helper: first bucket of the dict under the given key. -/
def dget : List (Nat × List Tree) → Nat → List Tree
  | [], _ => []
  | p :: res, d => if p.1 = d then p.2 else dget res d

/-- Specification helper: the dict's keys in insertion order. -/
def dkeys (res : List (Nat × List Tree)) : List Nat := res.map Prod.fst

/-- Specification helper: the distinct elements of a list in order of first
occurrence — the key order of a Python dict filled by one pass over the
list. -/
def firstKeys (l : List Nat) : List Nat :=
  l.foldl (fun acc a => if a ∈ acc then acc else acc ++ [a]) []

theorem keys_length (t : Tree) : (keys t).length = size t := by
  induction t with
  | nil => rfl
  | node v d l r ihl ihr => simp [keys, size, ihl, ihr]; omega

theorem allB_eq_true_iff (p : Int → Bool) (t : Tree) :
    allB p t = true ↔ ∀ x ∈ keys t, p x = true := by
  induction t with
  | nil => simp [allB, keys]
  | node v d l r ihl ihr =>
    simp only [allB, keys, Bool.and_eq_true, ihl, ihr, List.mem_append, List.mem_cons]
    constructor
    · rintro ⟨⟨hv, hl⟩, hr⟩ x hx
      rcases hx with hx | hx | hx
      · exact hl x hx
      · subst hx; exact hv
      · exact hr x hx
    · intro h
      exact ⟨⟨h v (Or.inr (Or.inl rfl)), fun x hx => h x (Or.inl hx)⟩,
        fun x hx => h x (Or.inr (Or.inr hx))⟩

theorem isBST_node_iff (v : Int) (d : Nat) (l r : Tree) :
    isBST (.node v d l r) = true ↔
      (∀ x ∈ keys l, x < v) ∧ (∀ x ∈ keys r, v < x) ∧ isBST l = true ∧ isBST r = true := by
  simp [isBST, Bool.and_eq_true, allB_eq_true_iff, and_assoc]

theorem isBST_pairwise (t : Tree) (h : isBST t = true) : (keys t).Pairwise (· < ·) := by
  induction t with
  | nil => simp [keys]
  | node v d l r ihl ihr =>
    rw [isBST_node_iff] at h
    obtain ⟨hl, hr, bl, br⟩ := h
    simp only [keys]
    rw [List.pairwise_append]
    refine ⟨ihl bl, ?_, ?_⟩
    · rw [List.pairwise_cons]
      exact ⟨hr, ihr br⟩
    · intro a ha b hb
      rcases List.mem_cons.mp hb with rfl | hb
      · exact hl a ha
      · exact lt_trans (hl a ha) (hr b hb)

theorem keys_nodup (t : Tree) (h : isBST t = true) : (keys t).Nodup := by
  exact (isBST_pairwise t h).imp ne_of_lt

theorem mem_keys_insertAux (t : Tree) (v : Int) (d : Nat) : v ∈ keys (insertAux t v d) := by
  induction t generalizing d with
  | nil => simp [insertAux, keys]
  | node x dx l r ihl ihr =>
    by_cases hvx : v = x
    · simp [insertAux, hvx, keys]
    · by_cases hlt : v < x
      · simp only [insertAux, if_neg hvx, if_pos hlt, keys, List.mem_append]
        exact Or.inl (ihl (d + 1))
      · simp only [insertAux, if_neg hvx, if_neg hlt, keys, List.mem_append, List.mem_cons]
        exact Or.inr (Or.inr (ihr (d + 1)))

theorem keys_insertAux_subset (t : Tree) (v w : Int) (d : Nat)
    (h : w ∈ keys (insertAux t v d)) : w = v ∨ w ∈ keys t := by
  induction t generalizing d with
  | nil => simpa [insertAux, keys] using h
  | node x dx l r ihl ihr =>
    by_cases hvx : v = x
    · simp only [insertAux, if_pos hvx] at h
      exact Or.inr h
    · by_cases hlt : v < x
      · simp only [insertAux, if_neg hvx, if_pos hlt, keys, List.mem_append,
          List.mem_cons] at h ⊢
        rcases h with h | h
        · rcases ihl (d + 1) h with h | h
          · exact Or.inl h
          · exact Or.inr (Or.inl h)
        · exact Or.inr (Or.inr h)
      · simp only [insertAux, if_neg hvx, if_neg hlt, keys, List.mem_append,
          List.mem_cons] at h ⊢
        rcases h with h | h | h
        · exact Or.inr (Or.inl h)
        · exact Or.inr (Or.inr (Or.inl h))
        · rcases ihr (d + 1) h with h | h
          · exact Or.inl h
          · exact Or.inr (Or.inr (Or.inr h))

theorem keys_insertAux_perm (t : Tree) (v : Int) (d : Nat) (h : v ∉ keys t) :
    (keys (insertAux t v d)).Perm (v :: keys t) := by
  induction t generalizing d with
  | nil => simp [insertAux, keys]
  | node x dx l r ihl ihr =>
    simp only [keys, List.mem_append, List.mem_cons, not_or] at h
    obtain ⟨hl, hx, hr⟩ := h
    by_cases hlt : v < x
    · simp only [insertAux, if_neg hx, if_pos hlt, keys]
      exact (ihl (d + 1) hl).append_right (x :: keys r)
    · simp only [insertAux, if_neg hx, if_neg hlt, keys]
      have h1 : (keys l ++ x :: keys (insertAux r v (d + 1))).Perm
          (keys l ++ x :: v :: keys r) :=
        List.Perm.append_left _ ((ihr (d + 1) hr).cons x)
      have h2 : ((keys l ++ [x]) ++ v :: keys r).Perm (v :: ((keys l ++ [x]) ++ keys r)) :=
        List.perm_middle
      refine h1.trans ?_
      simpa using h2

theorem isBST_insertAux (t : Tree) (v : Int) (d : Nat) (h : isBST t = true) :
    isBST (insertAux t v d) = true := by
  induction t generalizing d with
  | nil => simp [insertAux, isBST, allB]
  | node x dx l r ihl ihr =>
    rw [isBST_node_iff] at h
    obtain ⟨hl, hr, bl, br⟩ := h
    by_cases hvx : v = x
    · simp only [insertAux, if_pos hvx]
      exact (isBST_node_iff x dx l r).mpr ⟨hl, hr, bl, br⟩
    · by_cases hlt : v < x
      · simp only [insertAux, if_neg hvx, if_pos hlt]
        rw [isBST_node_iff]
        refine ⟨?_, hr, ihl (d + 1) bl, br⟩
        intro w hw
        rcases keys_insertAux_subset l v w (d + 1) hw with rfl | hw
        · exact hlt
        · exact hl w hw
      · have hgt : x < v := lt_of_le_of_ne (not_lt.mp hlt) (Ne.symm hvx)
        simp only [insertAux, if_neg hvx, if_neg hlt]
        rw [isBST_node_iff]
        refine ⟨hl, ?_, bl, ihr (d + 1) br⟩
        intro w hw
        rcases keys_insertAux_subset r v w (d + 1) hw with rfl | hw
        · exact hgt
        · exact hr w hw

theorem insertAux_eq_of_mem (t : Tree) (v : Int) (d : Nat)
    (hb : isBST t = true) (hm : v ∈ keys t) : insertAux t v d = t := by
  induction t generalizing d with
  | nil => simp [keys] at hm
  | node x dx l r ihl ihr =>
    rw [isBST_node_iff] at hb
    obtain ⟨hl, hr, bl, br⟩ := hb
    by_cases hvx : v = x
    · simp [insertAux, hvx]
    · by_cases hlt : v < x
      · have hmem : v ∈ keys l := by
          simp only [keys, List.mem_append, List.mem_cons] at hm
          rcases hm with h | h | h
          · exact h
          · exact absurd h hvx
          · exact absurd (hr v h) (lt_asymm hlt)
        simp [insertAux, if_neg hvx, if_pos hlt, ihl (d + 1) bl hmem]
      · have hgt : x < v := lt_of_le_of_ne (not_lt.mp hlt) (Ne.symm hvx)
        have hmem : v ∈ keys r := by
          simp only [keys, List.mem_append, List.mem_cons] at hm
          rcases hm with h | h | h
          · exact absurd (hl v h) (lt_asymm hgt)
          · exact absurd h hvx
          · exact h
        simp [insertAux, if_neg hvx, if_neg hlt, ihr (d + 1) br hmem]

theorem tail_append_of_ne_nil (l m : List Int) (h : l ≠ []) : (l ++ m).tail = l.tail ++ m := by
  cases l with
  | nil => exact absurd rfl h
  | cons a l => simp

theorem head_cons_tail (l : List Int) (a : Int) (h : l.head? = some a) : a :: l.tail = l := by
  cases l with
  | nil => simp at h
  | cons b tl =>
    simp only [List.head?] at h
    injection h with h
    simp [h]

theorem searchMin_head (l : Tree) (v : Int) (rest : List Int) :
    (keys l ++ v :: rest).head? = some (searchMin v l) := by
  induction l generalizing v rest with
  | nil => simp [keys, searchMin]
  | node lv ld ll lr ihl ihr =>
    show ((keys ll ++ lv :: keys lr) ++ v :: rest).head? = some (searchMin lv ll)
    rw [List.append_assoc, List.cons_append]
    exact ihl lv (keys lr ++ v :: rest)

theorem searchMin_mem (l : Tree) (v : Int) : searchMin v l ∈ keys l ∨ searchMin v l = v := by
  induction l generalizing v with
  | nil => exact Or.inr rfl
  | node lv ld ll lr ihl ihr =>
    left
    show searchMin lv ll ∈ keys ll ++ lv :: keys lr
    rcases ihl lv with h | h
    · exact List.mem_append.mpr (Or.inl h)
    · rw [h]
      exact List.mem_append.mpr (Or.inr (List.mem_cons_self _ _))

theorem searchMin_le (rv : Int) (rd : Nat) (rl rr : Tree)
    (h : (keys (Tree.node rv rd rl rr)).Pairwise (· < ·)) :
    ∀ x ∈ keys (Tree.node rv rd rl rr), searchMin rv rl ≤ x := by
  have hh : (keys (Tree.node rv rd rl rr)).head? = some (searchMin rv rl) :=
    searchMin_head rl rv (keys rr)
  intro x hx
  cases hk : keys (Tree.node rv rd rl rr) with
  | nil => rw [hk] at hx; simp at hx
  | cons a tl =>
    rw [hk] at hh hx h
    have ha : a = searchMin rv rl := by
      simp only [List.head?] at hh
      injection hh
    rw [List.pairwise_cons] at h
    rcases List.mem_cons.mp hx with rfl | hx
    · exact le_of_eq ha.symm
    · exact le_of_lt (ha ▸ h.1 x hx)

theorem keys_deleteMin (l : Tree) (v : Int) (d : Nat) (r : Tree) :
    keys (deleteMin v d l r) = (keys l ++ v :: keys r).tail := by
  induction l generalizing v d r with
  | nil => simp [deleteMin, keys]
  | node lv ld ll lr ihl ihr =>
    show keys (Tree.node v d (deleteMin lv ld ll lr) r) = _
    simp only [keys]
    rw [ihl lv ld]
    have hne : keys ll ++ lv :: keys lr ≠ [] := by simp
    rw [tail_append_of_ne_nil _ _ hne]

theorem keys_deleteAux (t : Tree) (v : Int) (hb : isBST t = true) :
    keys (deleteAux t v) = (keys t).erase v := by
  induction t with
  | nil => simp [deleteAux, keys]
  | node x d l r ihl ihr =>
    rw [isBST_node_iff] at hb
    obtain ⟨hl, hr, bl, br⟩ := hb
    by_cases hvx : v = x
    · cases l with
      | nil =>
        simp only [deleteAux]
        rw [if_pos hvx, hvx]
        show keys r = (keys Tree.nil ++ x :: keys r).erase x
        simp only [keys, List.nil_append]
        rw [List.erase_cons_head]
      | node lv lld ll lr =>
        have hxl : x ∉ keys ll ++ lv :: keys lr := fun h => lt_irrefl x (hl x h)
        cases r with
        | nil =>
          simp only [deleteAux]
          rw [if_pos hvx, hvx]
          show keys ll ++ lv :: keys lr
              = ((keys ll ++ lv :: keys lr) ++ x :: keys Tree.nil).erase x
          rw [List.erase_append_right _ hxl]
          simp only [keys]
          rw [List.erase_cons_head, List.append_nil]
        | node rv rd rl rr =>
          simp only [deleteAux]
          rw [if_pos hvx, hvx]
          show (keys ll ++ lv :: keys lr) ++ searchMin rv rl :: keys (deleteMin rv rd rl rr)
              = ((keys ll ++ lv :: keys lr) ++ x :: (keys rl ++ rv :: keys rr)).erase x
          rw [keys_deleteMin rl rv rd rr]
          rw [List.erase_append_right _ hxl, List.erase_cons_head]
          rw [head_cons_tail _ _ (searchMin_head rl rv (keys rr))]
    · have hxv : ¬(x == v) = true := by
        simp only [beq_iff_eq]
        exact fun h => hvx h.symm
      by_cases hlt : v < x
      · have hvr : v ∉ keys r := fun h => lt_asymm hlt (hr v h)
        simp only [deleteAux]
        rw [if_neg hvx, if_pos hlt]
        simp only [keys]
        rw [ihl bl]
        by_cases hm : v ∈ keys l
        · rw [List.erase_append_left _ hm]
        · rw [List.erase_append_right _ hm, List.erase_of_not_mem hm,
            List.erase_cons_tail hxv, List.erase_of_not_mem hvr]
      · have hgt : x < v := lt_of_le_of_ne (not_lt.mp hlt) (Ne.symm hvx)
        have hvl : v ∉ keys l := fun h => lt_asymm hgt (hl v h)
        simp only [deleteAux]
        rw [if_neg hvx, if_neg hlt]
        simp only [keys]
        rw [ihr br]
        rw [List.erase_append_right _ hvl, List.erase_cons_tail hxv]

theorem isBST_deleteMin (v : Int) (d : Nat) (l r : Tree)
    (hb : isBST (Tree.node v d l r) = true) : isBST (deleteMin v d l r) = true := by
  induction l generalizing v d r with
  | nil =>
    rw [isBST_node_iff] at hb
    exact hb.2.2.2
  | node lv ld ll lr ihl ihr =>
    rw [isBST_node_iff] at hb
    obtain ⟨hl, hr, bl, br⟩ := hb
    show isBST (Tree.node v d (deleteMin lv ld ll lr) r) = true
    rw [isBST_node_iff]
    refine ⟨?_, hr, ?_, br⟩
    · intro w hw
      rw [keys_deleteMin ll lv ld lr] at hw
      exact hl w ((List.tail_sublist _).subset hw)
    · exact ihl lv ld lr bl

theorem isBST_deleteAux (t : Tree) (v : Int) (hb : isBST t = true) :
    isBST (deleteAux t v) = true := by
  induction t with
  | nil => simpa [deleteAux] using hb
  | node x d l r ihl ihr =>
    rw [isBST_node_iff] at hb
    obtain ⟨hl, hr, bl, br⟩ := hb
    by_cases hvx : v = x
    · cases l with
      | nil =>
        simp only [deleteAux]
        rw [if_pos hvx]
        exact br
      | node lv lld ll lr =>
        cases r with
        | nil =>
          simp only [deleteAux]
          rw [if_pos hvx]
          exact bl
        | node rv rd rl rr =>
          simp only [deleteAux]
          rw [if_pos hvx]
          show isBST (Tree.node (searchMin rv rl) d (Tree.node lv lld ll lr)
            (deleteMin rv rd rl rr)) = true
          rw [isBST_node_iff]
          have hmem : searchMin rv rl ∈ keys (Tree.node rv rd rl rr) := by
            show searchMin rv rl ∈ keys rl ++ rv :: keys rr
            rcases searchMin_mem rl rv with h | h
            · exact List.mem_append.mpr (Or.inl h)
            · rw [h]
              exact List.mem_append.mpr (Or.inr (List.mem_cons_self _ _))
          have hxm : x < searchMin rv rl := hr _ hmem
          refine ⟨?_, ?_, bl, isBST_deleteMin rv rd rl rr br⟩
          · intro w hw
            exact lt_trans (hl w hw) hxm
          · intro w hw
            rw [keys_deleteMin rl rv rd rr] at hw
            have hct : searchMin rv rl :: (keys rl ++ rv :: keys rr).tail
                = keys rl ++ rv :: keys rr :=
              head_cons_tail _ _ (searchMin_head rl rv (keys rr))
            have hp2 : (searchMin rv rl :: (keys rl ++ rv :: keys rr).tail).Pairwise
                (· < ·) := by
              rw [hct]
              exact isBST_pairwise _ br
            exact (List.pairwise_cons.mp hp2).1 w hw
    · by_cases hlt : v < x
      · simp only [deleteAux]
        rw [if_neg hvx, if_pos hlt]
        rw [isBST_node_iff]
        refine ⟨?_, hr, ihl bl, br⟩
        intro w hw
        rw [keys_deleteAux l v bl] at hw
        exact hl w (List.mem_of_mem_erase hw)
      · simp only [deleteAux]
        rw [if_neg hvx, if_neg hlt]
        rw [isBST_node_iff]
        refine ⟨hl, ?_, bl, ihr br⟩
        intro w hw
        rw [keys_deleteAux r v br] at hw
        exact hr w (List.mem_of_mem_erase hw)

theorem deleteAux_eq_of_not_mem (t : Tree) (v : Int) (h : v ∉ keys t) : deleteAux t v = t := by
  induction t with
  | nil => rfl
  | node x d l r ihl ihr =>
    simp only [keys, List.mem_append, List.mem_cons, not_or] at h
    obtain ⟨hl, hx, hr⟩ := h
    simp only [deleteAux]
    rw [if_neg hx]
    by_cases hlt : v < x
    · rw [if_pos hlt, ihl hl]
    · rw [if_neg hlt, ihr hr]

theorem isBST_insert (t : Tree) (v : Int) (h : isBST t = true) : isBST (insert t v) = true :=
  isBST_insertAux t v 0 h

theorem isBST_delete (t : Tree) (v : Int) (h : isBST t = true) : isBST (delete t v) = true :=
  isBST_deleteAux t v h

theorem keys_delete (t : Tree) (v : Int) (h : isBST t = true) :
    keys (delete t v) = (keys t).erase v :=
  keys_deleteAux t v h

theorem not_mem_keys_delete (t : Tree) (v : Int) (h : isBST t = true) :
    v ∉ keys (delete t v) := by
  rw [keys_delete t v h]
  exact (keys_nodup t h).not_mem_erase

theorem isBST_foldl (ops : List Op) (t : Tree) (h : isBST t = true) :
    isBST (List.foldl step t ops) = true := by
  induction ops generalizing t with
  | nil => exact h
  | cons op ops ih =>
    cases op with
    | ins v => exact ih _ (isBST_insert t v h)
    | del v => exact ih _ (isBST_delete t v h)

theorem isBST_run (ops : List Op) : isBST (run ops) = true := isBST_foldl ops .nil rfl

theorem isBST_ofList (xs : List Int) : isBST (ofList xs) = true := by
  have haux : ∀ (ys : List Int) (t : Tree), isBST t = true →
      isBST (List.foldl insert t ys) = true := by
    intro ys
    induction ys with
    | nil => exact fun t h => h
    | cons y ys ih => exact fun t h => ih _ (isBST_insert t y h)
  exact haux xs .nil rfl

theorem inOrder_map_val (t : Tree) : (inOrder t).map Tree.val = keys t := by
  induction t with
  | nil => rfl
  | node v d l r ihl ihr => simp [inOrder, keys, ihl, ihr, Tree.val]

theorem preOrder_map_val_perm (t : Tree) : ((preOrder t).map Tree.val).Perm (keys t) := by
  induction t with
  | nil => simp [preOrder, keys]
  | node v d l r ihl ihr =>
    simp only [preOrder, keys, List.map_cons, List.map_append, Tree.val]
    have h1 : (v :: ((preOrder l).map Tree.val ++ (preOrder r).map Tree.val)).Perm
        (v :: (keys l ++ keys r)) := (ihl.append ihr).cons v
    exact h1.trans List.perm_middle.symm

theorem postOrder_map_val_perm (t : Tree) : ((postOrder t).map Tree.val).Perm (keys t) := by
  induction t with
  | nil => simp [postOrder, keys]
  | node v d l r ihl ihr =>
    simp only [postOrder, keys, List.map_append, List.map_cons, List.map_nil, Tree.val]
    have h1 : (((postOrder l).map Tree.val ++ (postOrder r).map Tree.val) ++ [v]).Perm
        ((keys l ++ keys r) ++ [v]) := (ihl.append ihr).append_right [v]
    refine h1.trans ?_
    rw [List.append_assoc]
    exact List.Perm.append_left (keys l) (List.perm_append_singleton v (keys r))

theorem size_insert_of_not_mem (t : Tree) (v : Int) (h : v ∉ keys t) :
    size (insert t v) = size t + 1 := by
  have hp := (keys_insertAux_perm t v 0 h).length_eq
  simp only [List.length_cons] at hp
  rw [keys_length, keys_length] at hp
  exact hp

theorem size_delete_of_mem (t : Tree) (v : Int) (hb : isBST t = true) (hm : v ∈ keys t) :
    size (delete t v) + 1 = size t := by
  have hlen : (keys (delete t v)).length = (keys t).length - 1 := by
    rw [keys_delete t v hb]
    exact List.length_erase_of_mem hm
  rw [keys_length, keys_length] at hlen
  have hpos : 1 ≤ size t := by
    rw [← keys_length]
    exact List.length_pos.mpr (List.ne_nil_of_mem hm)
  omega

theorem insert_eq_of_mem (t : Tree) (v : Int) (hb : isBST t = true) (hm : v ∈ keys t) :
    insert t v = t := insertAux_eq_of_mem t v 0 hb hm

theorem size_foldl_step (ops : List Op) (t : Tree) (hb : isBST t = true) :
    size (List.foldl step t ops) + succDeletes t ops = size t + succInserts t ops := by
  induction ops generalizing t with
  | nil => simp [succDeletes, succInserts]
  | cons op ops ih =>
    cases op with
    | ins v =>
      show size (List.foldl step (insert t v) ops) + succDeletes (insert t v) ops
          = size t + ((if v ∈ keys t then 0 else 1) + succInserts (insert t v) ops)
      by_cases hm : v ∈ keys t
      · rw [if_pos hm, insert_eq_of_mem t v hb hm]
        have := ih t hb
        omega
      · rw [if_neg hm]
        have h1 := ih (insert t v) (isBST_insert t v hb)
        have h2 := size_insert_of_not_mem t v hm
        omega
    | del v =>
      show size (List.foldl step (delete t v) ops) + ((if v ∈ keys t then 1 else 0)
          + succDeletes (delete t v) ops) = size t + succInserts (delete t v) ops
      by_cases hm : v ∈ keys t
      · rw [if_pos hm]
        have h1 := ih (delete t v) (isBST_delete t v hb)
        have h2 := size_delete_of_mem t v hb hm
        omega
      · rw [if_neg hm, show delete t v = t from deleteAux_eq_of_not_mem t v hm]
        have := ih t hb
        omega

theorem size_run_eq (ops : List Op) :
    size (run ops) + succDeletes .nil ops = succInserts .nil ops := by
  have h := size_foldl_step ops .nil rfl
  simpa [run, size] using h

/-- Specification helper: every node stored in a bucket of the dict has that
bucket's key as its cached depth. -/
def entriesOk (res : List (Nat × List Tree)) : Prop :=
  ∀ p ∈ res, ∀ n ∈ p.2, Tree.depth n = p.1

theorem dget_dictAdd (res : List (Nat × List Tree)) (e : Nat) (n : Tree) (d : Nat) :
    dget (dictAdd res e n) d = dget res d ++ (if e = d then [n] else []) := by
  induction res with
  | nil => by_cases h : e = d <;> simp [dictAdd, dget, h]
  | cons p res ih =>
    obtain ⟨k, b⟩ := p
    by_cases hke : k = e
    · subst hke
      by_cases hkd : k = d
      · subst hkd
        simp [dictAdd, dget]
      · simp [dictAdd, dget, hkd]
    · by_cases hkd : k = d
      · subst hkd
        have hek : ¬ e = k := fun h => hke h.symm
        simp [dictAdd, dget, hke, hek]
      · simp [dictAdd, dget, hke, hkd, ih]

theorem dkeys_dictAdd (res : List (Nat × List Tree)) (e : Nat) (n : Tree) :
    dkeys (dictAdd res e n) = if e ∈ dkeys res then dkeys res else dkeys res ++ [e] := by
  induction res with
  | nil => simp [dictAdd, dkeys]
  | cons p res ih =>
    obtain ⟨k, b⟩ := p
    by_cases hke : k = e
    · subst hke
      simp [dictAdd, dkeys]
    · have hek : ¬ e = k := fun h => hke h.symm
      simp only [dictAdd, if_neg hke, dkeys, List.map_cons] at ih ⊢
      rw [ih]
      by_cases hm : e ∈ List.map Prod.fst res
      · simp [hm, hek]
      · simp [hm, hek]

theorem entriesOk_dictAdd (res : List (Nat × List Tree)) (n : Tree)
    (h : entriesOk res) : entriesOk (dictAdd res (Tree.depth n) n) := by
  induction res with
  | nil =>
    intro p hp m hm
    simp only [dictAdd, List.mem_singleton] at hp
    subst hp
    simp only [List.mem_singleton] at hm
    subst hm
    rfl
  | cons q res ih =>
    obtain ⟨k, b⟩ := q
    by_cases hk : k = Tree.depth n
    · intro p hp m hm
      simp only [dictAdd, if_pos hk] at hp
      rcases List.mem_cons.mp hp with rfl | hp
      · rcases List.mem_append.mp hm with hm2 | hm2
        · exact h (k, b) (List.mem_cons_self _ _) m hm2
        · simp only [List.mem_singleton] at hm2
          subst hm2
          exact hk.symm
      · exact h p (List.mem_cons_of_mem _ hp) m hm
    · intro p hp m hm
      simp only [dictAdd, if_neg hk] at hp
      rcases List.mem_cons.mp hp with rfl | hp
      · exact h (k, b) (List.mem_cons_self _ _) m hm
      · exact ih (fun q hq => h q (List.mem_cons_of_mem _ hq)) p hp m hm

theorem entriesOk_levelAux (t : Tree) (res : List (Nat × List Tree)) (h : entriesOk res) :
    entriesOk (levelAux t res) := by
  induction t generalizing res with
  | nil => exact h
  | node v d l r ihl ihr =>
    exact ihr _ (ihl _ (entriesOk_dictAdd res (Tree.node v d l r) h))

theorem dget_levelAux (t : Tree) (res : List (Nat × List Tree)) (d : Nat) :
    dget (levelAux t res) d
      = dget res d ++ (preOrder t).filter (fun n => Tree.depth n == d) := by
  induction t generalizing res with
  | nil => simp [levelAux, preOrder]
  | node v dv l r ihl ihr =>
    show dget (levelAux r (levelAux l (dictAdd res dv (Tree.node v dv l r)))) d = _
    rw [ihr, ihl, dget_dictAdd]
    by_cases hdv : dv = d
    · simp [preOrder, Tree.depth, hdv, List.filter_cons, List.filter_append,
        List.append_assoc]
    · simp [preOrder, Tree.depth, hdv, List.filter_cons, List.filter_append,
        List.append_assoc]

theorem nodup_dkeys_dictAdd (res : List (Nat × List Tree)) (e : Nat) (n : Tree)
    (h : (dkeys res).Nodup) : (dkeys (dictAdd res e n)).Nodup := by
  rw [dkeys_dictAdd]
  by_cases hm : e ∈ dkeys res
  · rw [if_pos hm]
    exact h
  · rw [if_neg hm]
    simp [List.nodup_append, h, hm]

theorem nodup_dkeys_levelAux (t : Tree) (res : List (Nat × List Tree))
    (h : (dkeys res).Nodup) : (dkeys (levelAux t res)).Nodup := by
  induction t generalizing res with
  | nil => exact h
  | node v d l r ihl ihr => exact ihr _ (ihl _ (nodup_dkeys_dictAdd res d _ h))

theorem filter_flatten_not_mem (res : List (Nat × List Tree)) (d : Nat)
    (hok : entriesOk res) (hd : d ∉ dkeys res) :
    ((res.map Prod.snd).flatten).filter (fun n => Tree.depth n == d) = [] := by
  induction res with
  | nil => rfl
  | cons p res ih =>
    simp only [dkeys, List.map_cons, List.mem_cons, not_or] at hd
    simp only [List.map_cons, List.flatten_cons, List.filter_append]
    have h1 : p.2.filter (fun n => Tree.depth n == d) = [] := by
      rw [List.filter_eq_nil_iff]
      intro n hn
      simp only [beq_iff_eq, hok p (List.mem_cons_self _ _) n hn]
      exact fun h => hd.1 h.symm
    rw [h1, ih (fun q hq => hok q (List.mem_cons_of_mem _ hq)) hd.2]
    rfl

theorem filter_flatten_dget (res : List (Nat × List Tree)) (d : Nat)
    (hok : entriesOk res) (hnd : (dkeys res).Nodup) :
    ((res.map Prod.snd).flatten).filter (fun n => Tree.depth n == d) = dget res d := by
  induction res with
  | nil => rfl
  | cons p res ih =>
    simp only [List.map_cons, List.flatten_cons, List.filter_append]
    have hoktl : entriesOk res := fun q hq => hok q (List.mem_cons_of_mem _ hq)
    have hndtl : (dkeys res).Nodup := by
      simp only [dkeys, List.map_cons] at hnd
      exact (List.nodup_cons.mp hnd).2
    by_cases hpd : p.1 = d
    · have h1 : p.2.filter (fun n => Tree.depth n == d) = p.2 := by
        rw [List.filter_eq_self]
        intro n hn
        simp [beq_iff_eq, hok p (List.mem_cons_self _ _) n hn, hpd]
      have hdnot : d ∉ dkeys res := by
        simp only [dkeys, List.map_cons] at hnd
        have h2 := (List.nodup_cons.mp hnd).1
        rw [hpd] at h2
        exact h2
      rw [h1, filter_flatten_not_mem res d hoktl hdnot]
      simp [dget, hpd]
    · have h1 : p.2.filter (fun n => Tree.depth n == d) = [] := by
        rw [List.filter_eq_nil_iff]
        intro n hn
        simp [beq_iff_eq, hok p (List.mem_cons_self _ _) n hn, hpd]
      rw [h1, ih hoktl hndtl]
      simp [dget, hpd]

theorem entriesOk_nil_start : entriesOk [] := fun p hp => absurd hp (List.not_mem_nil p)

theorem levelOrder_filter_eq (t : Tree) (d : Nat) :
    (levelOrder t).filter (fun n => Tree.depth n == d)
      = (preOrder t).filter (fun n => Tree.depth n == d) := by
  have h := filter_flatten_dget (levelAux t []) d
    (entriesOk_levelAux t [] entriesOk_nil_start)
    (nodup_dkeys_levelAux t [] List.nodup_nil)
  rw [levelOrder, h, dget_levelAux t [] d]
  rfl

theorem levelOrder_perm_preOrder (t : Tree) : (levelOrder t).Perm (preOrder t) := by
  rw [List.perm_iff_count]
  intro a
  calc List.count a (levelOrder t)
      = List.count a ((levelOrder t).filter fun n => Tree.depth n == Tree.depth a) :=
        (List.count_filter (by simp)).symm
    _ = List.count a ((preOrder t).filter fun n => Tree.depth n == Tree.depth a) := by
        rw [levelOrder_filter_eq]
    _ = List.count a (preOrder t) := List.count_filter (by simp)

theorem pairwise_le_of_const (l : List Nat) (c : Nat) (h : ∀ x ∈ l, x = c) :
    l.Pairwise (· ≤ ·) := by
  induction l with
  | nil => exact List.Pairwise.nil
  | cons a l ih =>
    rw [List.pairwise_cons]
    refine ⟨?_, ih fun x hx => h x (List.mem_cons_of_mem _ hx)⟩
    intro b hb
    rw [h a (List.mem_cons_self _ _), h b (List.mem_cons_of_mem _ hb)]

theorem pairwise_depth_flatten (res : List (Nat × List Tree))
    (hok : entriesOk res) (hkeys : (dkeys res).Pairwise (· < ·)) :
    (((res.map Prod.snd).flatten).map Tree.depth).Pairwise (· ≤ ·) := by
  induction res with
  | nil => simp
  | cons p res ih =>
    have hoktl : entriesOk res := fun q hq => hok q (List.mem_cons_of_mem _ hq)
    have hkeystl : (dkeys res).Pairwise (· < ·) := by
      simp only [dkeys, List.map_cons] at hkeys
      exact (List.pairwise_cons.mp hkeys).2
    have hcross : ∀ y ∈ dkeys res, p.1 < y := by
      simp only [dkeys, List.map_cons] at hkeys
      exact (List.pairwise_cons.mp hkeys).1
    simp only [List.map_cons, List.flatten_cons, List.map_append]
    rw [List.pairwise_append]
    refine ⟨?_, ih hoktl hkeystl, ?_⟩
    · exact pairwise_le_of_const _ p.1 fun x hx => by
        obtain ⟨n, hn, rfl⟩ := List.mem_map.mp hx
        exact hok p (List.mem_cons_self _ _) n hn
    · intro a ha b hb
      obtain ⟨n, hn, rfl⟩ := List.mem_map.mp ha
      obtain ⟨m, hm, rfl⟩ := List.mem_map.mp hb
      obtain ⟨ll, hll, hmll⟩ := List.mem_flatten.mp hm
      obtain ⟨q, hq, rfl⟩ := List.mem_map.mp hll
      have hmq : Tree.depth m = q.1 := hok q (List.mem_cons_of_mem _ hq) m hmll
      have hq1 : q.1 ∈ dkeys res := List.mem_map_of_mem Prod.fst hq
      rw [hok p (List.mem_cons_self _ _) n hn, hmq]
      exact le_of_lt (hcross q.1 hq1)

theorem dkeys_levelAux_range (t : Tree) (k : Nat) (res : List (Nat × List Tree)) (m : Nat)
    (ht : depthOk t k = true) (hres : dkeys res = List.range m) (hkm : k ≤ m) :
    ∃ mm, m ≤ mm ∧ dkeys (levelAux t res) = List.range mm := by
  induction t generalizing k res m with
  | nil => exact ⟨m, le_refl m, hres⟩
  | node v d l r ihl ihr =>
    simp only [depthOk, Bool.and_eq_true, decide_eq_true_eq] at ht
    obtain ⟨⟨hdk, hl⟩, hr⟩ := ht
    subst hdk
    show ∃ mm, m ≤ mm ∧
      dkeys (levelAux r (levelAux l (dictAdd res d (Tree.node v d l r)))) = List.range mm
    by_cases hdm : d < m
    · have h1 : dkeys (dictAdd res d (Tree.node v d l r)) = List.range m := by
        rw [dkeys_dictAdd, hres, if_pos (List.mem_range.mpr hdm)]
      obtain ⟨m2, hm2, h2⟩ := ihl (d + 1) _ m hl h1 (by omega)
      obtain ⟨m3, hm3, h3⟩ := ihr (d + 1) _ m2 hr h2 (by omega)
      exact ⟨m3, le_trans hm2 hm3, h3⟩
    · have hdm2 : d = m := Nat.le_antisymm hkm (not_lt.mp hdm)
      have h1 : dkeys (dictAdd res d (Tree.node v d l r)) = List.range (m + 1) := by
        rw [dkeys_dictAdd, hres, if_neg (by simpa using hdm), hdm2]
        exact (List.range_succ m).symm
      obtain ⟨m2, hm2, h2⟩ := ihl (d + 1) _ (m + 1) hl h1 (by omega)
      obtain ⟨m3, hm3, h3⟩ := ihr (d + 1) _ m2 hr h2 (by omega)
      exact ⟨m3, by omega, h3⟩

theorem levelOrder_depth_sorted (t : Tree) (h : depthOk t 0 = true) :
    ((levelOrder t).map Tree.depth).Pairwise (· ≤ ·) := by
  obtain ⟨m, _, hm⟩ := dkeys_levelAux_range t 0 [] 0 h rfl (le_refl 0)
  apply pairwise_depth_flatten
  · exact entriesOk_levelAux t [] entriesOk_nil_start
  · rw [hm]
    exact List.pairwise_lt_range m

theorem dkeys_levelAux_foldl (t : Tree) (res : List (Nat × List Tree)) :
    dkeys (levelAux t res)
      = ((preOrder t).map Tree.depth).foldl
          (fun acc a => if a ∈ acc then acc else acc ++ [a]) (dkeys res) := by
  induction t generalizing res with
  | nil => rfl
  | node v d l r ihl ihr =>
    show dkeys (levelAux r (levelAux l (dictAdd res d (Tree.node v d l r)))) = _
    rw [ihr, ihl, dkeys_dictAdd]
    simp only [preOrder, Tree.depth, List.map_cons, List.map_append, List.foldl_cons,
      List.foldl_append]

theorem dkeys_levelAux_eq_firstKeys (t : Tree) :
    dkeys (levelAux t []) = firstKeys ((preOrder t).map Tree.depth) := by
  show dkeys (levelAux t []) = ((preOrder t).map Tree.depth).foldl
    (fun acc a => if a ∈ acc then acc else acc ++ [a]) []
  exact dkeys_levelAux_foldl t []

theorem map_snd_eq_map_dget (res : List (Nat × List Tree)) (hnd : (dkeys res).Nodup) :
    res.map Prod.snd = (dkeys res).map (dget res) := by
  induction res with
  | nil => rfl
  | cons p res ih =>
    simp only [dkeys, List.map_cons] at hnd ⊢
    have hndtl : (List.map Prod.fst res).Nodup := (List.nodup_cons.mp hnd).2
    have hp1 : p.1 ∉ List.map Prod.fst res := (List.nodup_cons.mp hnd).1
    congr 1
    · show p.2 = dget (p :: res) p.1
      simp [dget]
    · rw [show res.map Prod.snd = (dkeys res).map (dget res) from ih hndtl]
      simp only [dkeys]
      apply List.map_congr_left
      intro k hk
      show dget res k = dget (p :: res) k
      have hne : ¬ p.1 = k := fun h => hp1 (by rw [h]; exact hk)
      simp [dget, hne]

theorem levelOrder_flatten_groups (t : Tree) :
    levelOrder t = ((firstKeys ((preOrder t).map Tree.depth)).map
      (fun k => (preOrder t).filter (fun n => Tree.depth n == k))).flatten := by
  rw [← dkeys_levelAux_eq_firstKeys t]
  rw [levelOrder, map_snd_eq_map_dget _ (nodup_dkeys_levelAux t [] List.nodup_nil)]
  congr 1
  apply List.map_congr_left
  intro k hk
  rw [dget_levelAux t [] k]
  rfl

theorem firstKeys_preOrder_nodup (t : Tree) :
    (firstKeys ((preOrder t).map Tree.depth)).Nodup := by
  rw [← dkeys_levelAux_eq_firstKeys t]
  exact nodup_dkeys_levelAux t [] List.nodup_nil

theorem depthOk_insertAux (t : Tree) (v : Int) (d : Nat) (h : depthOk t d = true) :
    depthOk (insertAux t v d) d = true := by
  induction t generalizing d with
  | nil => simp [insertAux, depthOk]
  | node x dx l r ihl ihr =>
    simp only [depthOk, Bool.and_eq_true, decide_eq_true_eq] at h
    obtain ⟨⟨hdx, hl⟩, hr⟩ := h
    by_cases hvx : v = x
    · simp only [insertAux, if_pos hvx, depthOk, Bool.and_eq_true, decide_eq_true_eq]
      exact ⟨⟨hdx, hl⟩, hr⟩
    · by_cases hlt : v < x
      · simp only [insertAux, if_neg hvx, if_pos hlt, depthOk, Bool.and_eq_true,
          decide_eq_true_eq]
        exact ⟨⟨hdx, ihl (d + 1) hl⟩, hr⟩
      · simp only [insertAux, if_neg hvx, if_neg hlt, depthOk, Bool.and_eq_true,
          decide_eq_true_eq]
        exact ⟨⟨hdx, hl⟩, ihr (d + 1) hr⟩

theorem depthOk_ofList (xs : List Int) : depthOk (ofList xs) 0 = true := by
  have haux : ∀ (ys : List Int) (t : Tree), depthOk t 0 = true →
      depthOk (List.foldl insert t ys) 0 = true := by
    intro ys
    induction ys with
    | nil => exact fun t h => h
    | cons y ys ih => exact fun t h => ih _ (depthOk_insertAux t y 0 h)
  exact haux xs .nil rfl

theorem traverse_map_val_perm (ty : TraverseType) (t : Tree) :
    ((traverse ty t).map Tree.val).Perm (keys t) := by
  cases ty with
  | PRE_ORDER => exact preOrder_map_val_perm t
  | IN_ORDER =>
    show ((inOrder t).map Tree.val).Perm (keys t)
    rw [inOrder_map_val]
  | POST_ORDER => exact postOrder_map_val_perm t
  | LEVEL_ORDER =>
    exact ((levelOrder_perm_preOrder t).map Tree.val).trans (preOrder_map_val_perm t)

theorem contains_iff_mem_keys (ty : TraverseType) (t : Tree) (v : Int) :
    contains ty t v = true ↔ v ∈ keys t := by
  rw [contains, List.any_eq_true]
  constructor
  · rintro ⟨n, hn, he⟩
    rw [beq_iff_eq] at he
    rw [← he]
    exact (traverse_map_val_perm ty t).mem_iff.mp (List.mem_map_of_mem _ hn)
  · intro hv
    have h1 := (traverse_map_val_perm ty t).mem_iff.mpr hv
    obtain ⟨n, hn, he⟩ := List.mem_map.mp h1
    exact ⟨n, hn, by rw [beq_iff_eq, he]⟩

theorem traverse_length (ty : TraverseType) (t : Tree) : (traverse ty t).length = size t := by
  have h := (traverse_map_val_perm ty t).length_eq
  rw [List.length_map] at h
  rw [h, keys_length]

/-- Claim C1: for every tree built by inserting any finite sequence of values
(and possibly deleting some), iterating with traverse_type IN_ORDER yields the
stored values in strictly ascending order. -/
theorem c1_inOrder_run_sorted (ops : List Op) :
    ((traverse .IN_ORDER (run ops)).map Tree.val).Pairwise (· < ·) := by
  show ((inOrder (run ops)).map Tree.val).Pairwise (· < ·)
  rw [inOrder_map_val]
  exact isBST_pairwise (run ops) (isBST_run ops)

/-- Claim C2: the binary-search-tree ordering invariant (left subtree strictly
below the node's value, right subtree strictly above, at every node) holds for
the empty tree and is preserved by every insert and every delete. -/
theorem c2_bst_invariant :
    isBST Tree.nil = true
    ∧ (∀ (t : Tree) (v : Int), isBST t = true → isBST (insert t v) = true)
    ∧ (∀ (t : Tree) (v : Int), isBST t = true → isBST (delete t v) = true) :=
  ⟨rfl, fun t v h => isBST_insert t v h, fun t v h => isBST_delete t v h⟩

/-- Witness for C2 at a concrete tree: inserting 3 into and deleting 5 from
the singleton tree holding 5 preserve the invariant. -/
theorem c2_bst_invariant_witness :
    isBST (insert (Tree.node 5 0 Tree.nil Tree.nil) 3) = true
    ∧ isBST (delete (Tree.node 5 0 Tree.nil Tree.nil) 5) = true :=
  ⟨c2_bst_invariant.2.1 (Tree.node 5 0 Tree.nil Tree.nil) 3 (by decide),
   c2_bst_invariant.2.2 (Tree.node 5 0 Tree.nil Tree.nil) 5 (by decide)⟩

/-- Claim C3: deleting the value of a node with both children overwrites that
node's value with the minimum of its right subtree (the leftmost descendant:
the head of the right subtree's in-order value list), removes that minimum
from the right subtree with the delete-the-leftmost walk (so the right
subtree's value list loses exactly its head), and keeps the node's depth. -/
theorem c3_delete_two_child (v : Int) (d : Nat) (l : Tree) (rv : Int) (rd : Nat)
    (rl rr : Tree) (hl : l ≠ Tree.nil)
    (hb : isBST (Tree.node v d l (Tree.node rv rd rl rr)) = true) :
    deleteAux (Tree.node v d l (Tree.node rv rd rl rr)) v
      = Tree.node (searchMin rv rl) d l (deleteMin rv rd rl rr)
    ∧ (keys (Tree.node rv rd rl rr)).head? = some (searchMin rv rl)
    ∧ searchMin rv rl ∈ keys (Tree.node rv rd rl rr)
    ∧ (∀ x ∈ keys (Tree.node rv rd rl rr), searchMin rv rl ≤ x)
    ∧ keys (deleteMin rv rd rl rr) = (keys (Tree.node rv rd rl rr)).tail
    ∧ (deleteAux (Tree.node v d l (Tree.node rv rd rl rr)) v).depth = d := by
  have hbr : isBST (Tree.node rv rd rl rr) = true := ((isBST_node_iff _ _ _ _).mp hb).2.2.2
  have heq : deleteAux (Tree.node v d l (Tree.node rv rd rl rr)) v
      = Tree.node (searchMin rv rl) d l (deleteMin rv rd rl rr) := by
    cases l with
    | nil => exact absurd rfl hl
    | node lv lld ll lr => simp [deleteAux]
  refine ⟨heq, searchMin_head rl rv (keys rr), ?_, ?_, keys_deleteMin rl rv rd rr, ?_⟩
  · show searchMin rv rl ∈ keys rl ++ rv :: keys rr
    rcases searchMin_mem rl rv with h | h
    · exact List.mem_append.mpr (Or.inl h)
    · rw [h]
      exact List.mem_append.mpr (Or.inr (List.mem_cons_self _ _))
  · exact searchMin_le rv rd rl rr (isBST_pairwise _ hbr)
  · rw [heq]
    rfl

/-- Witness for C3 on the tree 5 with left child 3 and right subtree
8-(6,9): deleting 5 promotes 6 into the matched node. -/
theorem c3_delete_two_child_witness :
    deleteAux (Tree.node 5 0 (Tree.node 3 1 Tree.nil Tree.nil)
        (Tree.node 8 1 (Tree.node 6 2 Tree.nil Tree.nil) (Tree.node 9 2 Tree.nil Tree.nil))) 5
      = Tree.node (searchMin 8 (Tree.node 6 2 Tree.nil Tree.nil)) 0
          (Tree.node 3 1 Tree.nil Tree.nil)
          (deleteMin 8 1 (Tree.node 6 2 Tree.nil Tree.nil)
            (Tree.node 9 2 Tree.nil Tree.nil)) :=
  (c3_delete_two_child 5 0 (Tree.node 3 1 Tree.nil Tree.nil) 8 1
    (Tree.node 6 2 Tree.nil Tree.nil) (Tree.node 9 2 Tree.nil Tree.nil)
    (by decide) (by decide)).1

/-- Claim C4: on every reachable tree state and for every traversal type,
contains(v) is true immediately after insert(v) and false immediately after a
subsequent delete(v). -/
theorem c4_contains_insert_delete (ty : TraverseType) (ops : List Op) (v : Int) :
    contains ty (insert (run ops) v) v = true
    ∧ contains ty (delete (insert (run ops) v) v) v = false := by
  constructor
  · rw [contains_iff_mem_keys]
    exact mem_keys_insertAux (run ops) v 0
  · have hb : isBST (insert (run ops) v) = true := isBST_insert _ v (isBST_run ops)
    have hnot := not_mem_keys_delete (insert (run ops) v) v hb
    cases hcb : contains ty (delete (insert (run ops) v) v) v
    · rfl
    · exact absurd ((contains_iff_mem_keys ty _ v).mp hcb) hnot

/-- Claim C5: inserting a value already stored in a (search-ordered) tree
leaves the tree completely unchanged, so in particular the in-order traversal
sequence is unchanged. -/
theorem c5_insert_mem_noop (t : Tree) (v : Int) (hb : isBST t = true) (hm : v ∈ keys t) :
    insert t v = t ∧ traverse .IN_ORDER (insert t v) = traverse .IN_ORDER t := by
  have h := insert_eq_of_mem t v hb hm
  exact ⟨h, by rw [h]⟩

/-- Witness for C5: re-inserting 5 into the singleton tree holding 5 is a
no-op. -/
theorem c5_insert_mem_noop_witness :
    insert (Tree.node 5 0 Tree.nil Tree.nil) 5 = Tree.node 5 0 Tree.nil Tree.nil
    ∧ traverse .IN_ORDER (insert (Tree.node 5 0 Tree.nil Tree.nil) 5)
      = traverse .IN_ORDER (Tree.node 5 0 Tree.nil Tree.nil) :=
  c5_insert_mem_noop (Tree.node 5 0 Tree.nil Tree.nil) 5 (by decide) (by decide)

/-- Counterexample to C6 as stated: after insert 2, 1, 0, 3 and delete 1 (a
deletion that splices the node holding 0 one level up, leaving its cached
depth 2 stale), level-order traversal yields nodes with cached depths
[0, 2, 1] — the depth-2 group precedes the depth-1 group, so the groups do
not appear in increasing depth order. -/
theorem c6_levelOrder_not_increasing :
    (levelOrder (run [Op.ins 2, Op.ins 1, Op.ins 0, Op.ins 3, Op.del 1])).map Tree.depth
      = [0, 2, 1]
    ∧ ¬ ((levelOrder (run [Op.ins 2, Op.ins 1, Op.ins 0, Op.ins 3,
        Op.del 1])).map Tree.depth).Pairwise (· ≤ ·) := by
  refine ⟨by decide, by decide⟩

/-- Claim C6 as amended: level-order traversal is exactly the concatenation of
one contiguous group per distinct cached depth — the groups ordered by the
first encounter of each cached depth in the pre-order left-first descent
(firstKeys of the pre-order depth sequence, a duplicate-free list), and each
group holding precisely that depth's nodes in pre-order encounter order — so
it yields all nodes (a permutation of pre-order); for a tree built by inserts
alone (cached depths correct) this group order is increasing depth order. -/
theorem c6_levelOrder_grouped (t : Tree) (xs : List Int) :
    levelOrder t = ((firstKeys ((preOrder t).map Tree.depth)).map
        (fun k => (preOrder t).filter (fun n => Tree.depth n == k))).flatten
    ∧ (firstKeys ((preOrder t).map Tree.depth)).Nodup
    ∧ (levelOrder t).Perm (preOrder t)
    ∧ ((levelOrder (ofList xs)).map Tree.depth).Pairwise (· ≤ ·) :=
  ⟨levelOrder_flatten_groups t, firstKeys_preOrder_nodup t,
   levelOrder_perm_preOrder t, levelOrder_depth_sorted (ofList xs) (depthOk_ofList xs)⟩

/-- Claim C7: deleting a value not stored in the tree (including from the
empty tree) raises no error and leaves the tree exactly as it was; on the
empty tree every traversal is empty and contains is false for every value. -/
theorem c7_delete_absent_noop :
    (∀ (t : Tree) (v : Int), v ∉ keys t → delete t v = t)
    ∧ (∀ ty : TraverseType, traverse ty Tree.nil = [])
    ∧ (∀ (ty : TraverseType) (v : Int), contains ty Tree.nil v = false) := by
  refine ⟨fun t v h => deleteAux_eq_of_not_mem t v h, ?_, ?_⟩
  · intro ty
    cases ty <;> rfl
  · intro ty v
    cases ty <;> rfl

/-- Witness for C7: deleting the absent value 3 from the singleton tree
holding 5 returns the tree unchanged. -/
theorem c7_delete_absent_noop_witness :
    delete (Tree.node 5 0 Tree.nil Tree.nil) 3 = Tree.node 5 0 Tree.nil Tree.nil :=
  c7_delete_absent_noop.1 (Tree.node 5 0 Tree.nil Tree.nil) 3 (by decide)

/-- Claim C8: pre-order traversal yields the root node first and post-order
traversal yields the root node last; each is empty exactly when the tree is
empty. -/
theorem c8_root_first_last (v : Int) (d : Nat) (l r : Tree) (t : Tree) :
    (traverse .PRE_ORDER (Tree.node v d l r)).head? = some (Tree.node v d l r)
    ∧ (traverse .POST_ORDER (Tree.node v d l r)).getLast? = some (Tree.node v d l r)
    ∧ (traverse .PRE_ORDER t = [] ↔ t = Tree.nil)
    ∧ (traverse .POST_ORDER t = [] ↔ t = Tree.nil) := by
  refine ⟨rfl, ?_, ?_, ?_⟩
  · show ((postOrder l ++ postOrder r) ++ [Tree.node v d l r]).getLast? = _
    exact List.getLast?_concat _
  · cases t with
    | nil => simp [traverse, preOrder]
    | node a b c e => simp [traverse, preOrder]
  · cases t with
    | nil => simp [traverse, postOrder]
    | node a b c e => simp [traverse, postOrder]

/-- Counterexample to C9 as stated: for insert 5, delete 5, insert 5 the tree
holds one node and every traversal has length 1, yet only one distinct value
was ever inserted and one delete removed a present value, so the claimed
count is 1 - 1 = 0. -/
theorem c9_count_counterexample :
    (traverse .PRE_ORDER (run [Op.ins 5, Op.del 5, Op.ins 5])).length = 1
    ∧ (insertedVals [Op.ins 5, Op.del 5, Op.ins 5]).dedup.length = 1
    ∧ succDeletes Tree.nil [Op.ins 5, Op.del 5, Op.ins 5] = 1
    ∧ (traverse .PRE_ORDER (run [Op.ins 5, Op.del 5, Op.ins 5])).length
        ≠ (insertedVals [Op.ins 5, Op.del 5, Op.ins 5]).dedup.length
          - succDeletes Tree.nil [Op.ins 5, Op.del 5, Op.ins 5] := by
  refine ⟨by decide, by decide, by decide, by decide⟩

/-- Claim C9 as amended: after any operation sequence the length of every
traversal equals the node count, and the node count equals the number of
inserts that added a then-absent value minus the number of deletes that
removed a then-present value. -/
theorem c9_traversal_length (ty : TraverseType) (ops : List Op) :
    (traverse ty (run ops)).length = size (run ops)
    ∧ size (run ops) + succDeletes Tree.nil ops = succInserts Tree.nil ops
    ∧ size (run ops) = succInserts Tree.nil ops - succDeletes Tree.nil ops := by
  have h := size_run_eq ops
  exact ⟨traverse_length ty (run ops), h, by omega⟩

/-- Claim C10: the constructor iterates its iterable argument unconditionally,
so constructing with the declared default None raises TypeError, while an
explicit empty sequence yields an empty tree. -/
theorem c10_init_none_typeError (tt : TraverseType) :
    binaryTreeInit none tt = InitResult.typeError
    ∧ binaryTreeInit (some []) tt = InitResult.ok ⟨Tree.nil, tt⟩ :=
  ⟨rfl, rfl⟩

end WoodenStructure
